import Mathlib

/-
  Verification development for the SMS relay server (sms_api_server.py).

  The development shallowly embeds the relevant parts of the program:
  text is modelled as `List Char` (one entry per Unicode code point, matching
  the length semantics of Python strings), optional values as `Option`, the
  mutable module-level state of the server as an explicit `ServerState`
  record, and the external backend calls as function parameters returning
  `Except`.  Persistence (save_histories / save_processed_sms) is modelled by
  mirror fields holding the last written value.
-/

set_option maxRecDepth 4000

namespace SmsBot

/-- Python regular-expression class \s over str patterns (and str.strip):
the ASCII whitespace characters together with the Unicode whitespace
code points recognised by CPython. -/
def pyIsSpace (c : Char) : Bool :=
  [' ', '\t', '\n', '\r', '\x0b', '\x0c', '\x1c', '\x1d', '\x1e', '\x1f',
   '\x85', '\xa0', '\u1680', '\u2000', '\u2001', '\u2002', '\u2003', '\u2004',
   '\u2005', '\u2006', '\u2007', '\u2008', '\u2009', '\u200a', '\u2028',
   '\u2029', '\u202f', '\u205f', '\u3000'].contains c

/-- The GSM_7BIT_CHARS string literal of the source, code point for code
point (the Python source builds a set from it; we keep the list, since
list membership and set membership coincide). -/
def GSM_7BIT_CHARS : String :=
  "@£$¥èéùìòÇ\nØø\rÅåΔ_ΦΓΛΩΠΨΣΘΞ !\"#¤%&\x27()*+,-./0123456789:;<=>?¡ABCDEFGHIJKLMNOPQRSTUVWXYZÄÖÑÜ§¿abcdefghijklmnopqrstuvwxyzäöñüà "

/-- GSM_7BIT_SET of the source, as the list of code points of
GSM_7BIT_CHARS. -/
def GSM_7BIT_SET : List Char := GSM_7BIT_CHARS.data

/-- is_gsm_7bit: True for None, otherwise every character must be in
GSM_7BIT_SET. -/
def is_gsm_7bit (text : Option (List Char)) : Bool :=
  match text with
  | none => true
  | some s => s.all fun ch => GSM_7BIT_SET.contains ch

/-- get_chunk_limit: the per-segment character limit for the encoding of
the given text. -/
def get_chunk_limit (text : Option (List Char)) (is_multipart : Bool) : Nat :=
  if is_gsm_7bit text then
    if is_multipart then 153 else 160
  else
    if is_multipart then 67 else 70

/-- The effect of re.sub of one-or-more-whitespace to a single space:
every maximal run of whitespace characters becomes one ASCII space. -/
def collapse : List Char → List Char
  | [] => []
  | [c] => if pyIsSpace c then [' '] else [c]
  | c :: d :: rest =>
    if pyIsSpace c then
      if pyIsSpace d then collapse (d :: rest)
      else ' ' :: collapse (d :: rest)
    else c :: collapse (d :: rest)

/-- Python str.strip with no argument: remove leading and trailing
whitespace. -/
def pyStrip (l : List Char) : List Char :=
  ((l.dropWhile pyIsSpace).reverse.dropWhile pyIsSpace).reverse

/-- The normalisation prefix of chunk_text_smart:
re.sub of whitespace runs to a single space, followed by strip. -/
def normalize (l : List Char) : List Char :=
  pyStrip (collapse l)

/-- Python str.split on a single space: pieces between the space
separators, keeping empty pieces. -/
def splitOnSpace : List Char → List (List Char)
  | [] => [[]]
  | c :: rest =>
    if c = ' ' then [] :: splitOnSpace rest
    else
      match splitOnSpace rest with
      | [] => [[c]]
      | w :: ws => (c :: w) :: ws

/-- Join word pieces back with single spaces (inverse of splitOnSpace). -/
def joinWords : List (List Char) → List Char
  | [] => []
  | [w] => w
  | w :: ws => w ++ ' ' :: joinWords ws

/-- Total length of a list of segments. -/
def sumLen (ps : List (List Char)) : Nat :=
  ps.foldr (fun w n => w.length + n) 0

/-- Concatenation of a list of segments. -/
def flat (ps : List (List Char)) : List Char :=
  ps.foldr (fun w l => w ++ l) []

/-- The inner descending for-loop of the long-word case of
chunk_text_smart: the largest i with 1 <= i <= bound such that the prefix
of length i fits its own multipart limit; 0 if no such i exists. -/
def findSplitAux (rem : List Char) : Nat → Nat
  | 0 => 0
  | i + 1 =>
    if i + 1 ≤ get_chunk_limit (some (rem.take (i + 1))) true then i + 1
    else findSplitAux rem i

/-- The split position chosen for the next emitted part of an over-long
word (the for-loop starts at len(remaining)). -/
def findSplit (rem : List Char) : Nat :=
  findSplitAux rem rem.length

/-- The while-loop of the long-word case, with explicit fuel so that the
definition is structurally recursive (the source loop consumes at least
one character per iteration, so fuel = length is always enough; a fuel of
0 models the otherwise-diverging case findSplit = 0, which is provably
unreachable). -/
def splitLongWordFuel : Nat → List Char → List (List Char)
  | 0, _ => []
  | _, [] => []
  | fuel + 1, rem =>
    let i := findSplit rem
    if i = 0 then []
    else rem.take i :: splitLongWordFuel fuel (rem.drop i)

/-- Character-level splitting of a word that exceeds its own multipart
limit. -/
def splitLongWord (rem : List Char) : List (List Char) :=
  splitLongWordFuel rem.length rem

/-- The word-packing for-loop of chunk_text_smart, as a recursion over
the word list with the accumulated chunks and the current chunk as
state; the base case appends the final pending chunk if non-empty. -/
def packWords (chunks : List (List Char)) (current : List Char) :
    List (List Char) → List (List Char)
  | [] => if current = [] then chunks else chunks ++ [current]
  | word :: ws =>
    let test := if current = [] then word else current ++ ' ' :: word
    if test.length ≤ get_chunk_limit (some test) true then
      packWords chunks test ws
    else
      let chunks1 := if current = [] then chunks else chunks ++ [current]
      if get_chunk_limit (some word) true < word.length then
        packWords (chunks1 ++ splitLongWord word) [] ws
      else
        packWords chunks1 word ws

/-- chunk_text_smart: smart chunking that determines the encoding per
chunk. -/
def chunk_text_smart (text : Option (List Char)) : List (List Char) :=
  match text with
  | none => []
  | some raw =>
    let t := normalize raw
    if t = [] then []
    else if t.length ≤ get_chunk_limit (some t) false then [t]
    else packWords [] [] (splitOnSpace t)

/-! ## Server state and message handling -/

/-- One history entry: histories[phone] holds dictionaries with keys
role, text, ts, direction. -/
structure Turn where
  role : String
  text : List Char
  ts : Nat
  direction : String
deriving DecidableEq

/-- Association-list lookup (Python dict indexing). -/
def getKey {α : Type} : List (String × α) → String → Option α
  | [], _ => none
  | (k0, v) :: rest, k => if k0 = k then some v else getKey rest k

/-- Association-list membership (Python `in` on a dict). -/
def hasKey {α : Type} : List (String × α) → String → Bool
  | [], _ => false
  | (k0, _) :: rest, k => if k0 = k then true else hasKey rest k

/-- Association-list update (Python dict assignment: overwrite in place,
or append a new binding). -/
def setKey {α : Type} : List (String × α) → String → α → List (String × α)
  | [], k, v => [(k, v)]
  | (k0, v0) :: rest, k, v =>
    if k0 = k then (k0, v) :: rest else (k0, v0) :: setKey rest k v

/-- Association-list deletion (Python del on a dict). -/
def eraseKey {α : Type} (m : List (String × α)) (k : String) :
    List (String × α) :=
  m.filter fun p => ¬ p.1 = k

/-- The mutable module-level state of the server.  The persisted* fields
mirror what save_histories / save_processed_sms last wrote to disk. -/
structure ServerState where
  histories : List (String × List Turn)
  persistedHistories : List (String × List Turn)
  chats : List String
  processed : List Nat
  persistedProcessed : List Nat
  sendQueue : List (String × List Char)
  geminiQueue : List (String × List Char)
  newMessageQueue : List (Nat × Option String × List Char)
deriving DecidableEq

/-- Confirmation text sent on a fresh registration. -/
def MSG_REGISTERED : List Char :=
  "Your number has been registered successfully.".data

/-- Text sent when a registered number sends chat again. -/
def MSG_ALREADY : List Char :=
  "Your number is already registered. You can start chatting!".data

/-- Confirmation text of the clear command. -/
def MSG_CLEARED : List Char :=
  "Chat history cleared successfully".data

/-- Interim reply sent before forwarding to the Gemini worker. -/
def MSG_THINKING : List Char :=
  "Thinking...".data

/-- Python str.lower, restricted to the ASCII case fold (sufficient for
the chat / clear comparisons of the router). -/
def pyLower (l : List Char) : List Char :=
  l.map Char.toLower

/-- handle_incoming: command routing for one inbound message.  A None
phone or text is dropped; the text is stripped and lower-cased for the
command comparison; send_sms_raw is modelled as appending to sendQueue
and gemini_workers.put as appending to geminiQueue. -/
def handle_incoming (st : ServerState) (phone : Option String)
    (text : Option (List Char)) : ServerState :=
  match phone, text with
  | some phone, some text =>
    let txt := pyStrip text
    let lower := pyLower txt
    if lower = "chat".data then
      if hasKey st.histories phone then
        { st with sendQueue := st.sendQueue ++ [(phone, MSG_ALREADY)] }
      else
        let h := setKey st.histories phone []
        { st with histories := h, persistedHistories := h,
                  sendQueue := st.sendQueue ++ [(phone, MSG_REGISTERED)] }
    else if lower = "clear".data then
      let h := eraseKey st.histories phone
      let ph := if hasKey st.histories phone then h else st.persistedHistories
      { st with histories := h, persistedHistories := ph,
                chats := st.chats.filter (fun q => ¬ q = phone),
                sendQueue := st.sendQueue ++ [(phone, MSG_CLEARED)] }
    else if hasKey st.histories phone then
      { st with sendQueue := st.sendQueue ++ [(phone, MSG_THINKING)],
                geminiQueue := st.geminiQueue ++ [(phone, txt)] }
    else st
  | _, _ => st

/-- One message of the transport poll result (termux-sms-list entry):
_id, number and type may be absent; body defaults to the empty string. -/
structure Sms where
  id : Option Nat
  number : Option String
  body : List Char
  type : Option String
deriving DecidableEq

/-- The dedup-accept condition of sms_polling_loop: a truthy id that is
not yet processed, on a message of type inbox. -/
def smsAccepted (st : ServerState) (sms : Sms) : Prop :=
  ∃ i, sms.id = some i ∧ i ≠ 0 ∧ i ∉ st.processed ∧ sms.type = some "inbox"

instance (st : ServerState) (sms : Sms) : Decidable (smsAccepted st sms) := by
  unfold smsAccepted
  cases h : sms.id with
  | none =>
    exact isFalse (by simp [h])
  | some i =>
    exact decidable_of_iff (i ≠ 0 ∧ i ∉ st.processed ∧ sms.type = some "inbox")
      (by simp [h])

/-- The state updates sms_polling_loop performs on an accepted message
before calling handle_incoming: insert the id into processed_sms,
persist the set, and publish the message to new_message_queue. -/
def ingest (st : ServerState) (sms : Sms) (i : Nat) : ServerState :=
  { st with processed := st.processed ++ [i],
            persistedProcessed := st.processed ++ [i],
            newMessageQueue := st.newMessageQueue ++ [(i, sms.number, sms.body)] }

/-- The per-message body of sms_polling_loop, instrumented: the second
component records the (sender, body) arguments of every handle_incoming
(router) invocation performed. -/
def process_sms_traced (st : ServerState) (sms : Sms) :
    ServerState × List (Option String × List Char) :=
  match sms.id with
  | some i =>
    if i ≠ 0 ∧ i ∉ st.processed ∧ sms.type = some "inbox" then
      (handle_incoming (ingest st sms i) sms.number (some sms.body),
       [(sms.number, sms.body)])
    else (st, [])
  | none => (st, [])

/-- The per-message body of sms_polling_loop (state effect only). -/
def process_sms (st : ServerState) (sms : Sms) : ServerState :=
  (process_sms_traced st sms).1

/-- gemini_worker_fn body for one job: ensure_chat (session creation
with the one-time initial prompt, modelled by createSession), then the
backend call (sendMessage); on success append the two turns, persist
and enqueue the chunked reply; any failure only logs. -/
def gemini_step (createSession : String → Except Unit Unit)
    (sendMessage : String → List Char → Except Unit (List Char))
    (ts : Nat) (st : ServerState) (phone : String) (text : List Char) :
    ServerState :=
  let ensure : Except Unit ServerState :=
    if st.chats.contains phone then Except.ok st
    else
      match createSession phone with
      | Except.error e => Except.error e
      | Except.ok _ => Except.ok { st with chats := st.chats ++ [phone] }
  match ensure with
  | Except.error _ => st
  | Except.ok st1 =>
    match sendMessage phone text with
    | Except.error _ => st1
    | Except.ok raw =>
      let reply := pyStrip raw
      let turns := (getKey st1.histories phone).getD [] ++
        [⟨"user", text, ts, "inbound"⟩, ⟨"assistant", reply, ts + 1, "outbound"⟩]
      let h := setKey st1.histories phone turns
      { st1 with histories := h, persistedHistories := h,
                 sendQueue := st1.sendQueue ++
                   (chunk_text_smart (some reply)).map (fun c => (phone, c)) }

/-- One iteration of the Gemini worker loop: take the next job off the
queue (if any) and run gemini_step on it. -/
def gemini_worker_step (createSession : String → Except Unit Unit)
    (sendMessage : String → List Char → Except Unit (List Char))
    (ts : Nat) (st : ServerState) : ServerState :=
  match st.geminiQueue with
  | [] => st
  | (phone, text) :: rest =>
    gemini_step createSession sendMessage ts
      { st with geminiQueue := rest } phone text

/-- Python list slicing l[s:] for a possibly negative start index. -/
def pySliceFrom {α : Type} (l : List α) (s : Int) : List α :=
  if 0 ≤ s then l.drop s.toNat
  else l.drop (l.length - min l.length (-s).toNat)

/-- Response model of the history endpoint. -/
structure ChatHistoryResponse where
  phone_number : String
  messages : List Turn
  total_count : Nat
deriving DecidableEq

/-- get_history endpoint: unknown numbers yield an empty response;
otherwise the messages are truncated by messages[-limit:] only when
limit is truthy, and total_count is the full stored length. -/
def get_history (st : ServerState) (phone : String) (limit : Option Int) :
    ChatHistoryResponse :=
  match getKey st.histories phone with
  | none => ⟨phone, [], 0⟩
  | some msgs =>
    let m := match limit with
      | none => msgs
      | some k => if k = 0 then msgs else pySliceFrom msgs (-k)
    ⟨phone, m, msgs.length⟩

/-! ## Association-list lemmas -/

theorem hasKey_setKey_self {α : Type} (m : List (String × α)) (k : String)
    (v : α) : hasKey (setKey m k v) k = true := by
  induction m with
  | nil => simp [setKey, hasKey]
  | cons p rest ih =>
    obtain ⟨k0, v0⟩ := p
    by_cases h : k0 = k <;> simp [setKey, hasKey, h, ih]

theorem getKey_setKey_self {α : Type} (m : List (String × α)) (k : String)
    (v : α) : getKey (setKey m k v) k = some v := by
  induction m with
  | nil => simp [setKey, getKey]
  | cons p rest ih =>
    obtain ⟨k0, v0⟩ := p
    by_cases h : k0 = k <;> simp [setKey, getKey, h, ih]

theorem eraseKey_of_not_hasKey {α : Type} (m : List (String × α)) (k : String)
    (h : hasKey m k = false) : eraseKey m k = m := by
  induction m with
  | nil => rfl
  | cons p rest ih =>
    obtain ⟨k0, v0⟩ := p
    simp only [hasKey] at h
    by_cases hk : k0 = k
    · simp [hk] at h
    · simp only [hk, if_false] at h
      have h1 : eraseKey rest k = rest := ih h
      simp only [eraseKey, List.filter_cons] at h1 ⊢
      rw [h1]
      simp [hk]

theorem hasKey_eraseKey_self {α : Type} (m : List (String × α)) (k : String) :
    hasKey (eraseKey m k) k = false := by
  induction m with
  | nil => rfl
  | cons p rest ih =>
    obtain ⟨k0, v0⟩ := p
    simp only [eraseKey, List.filter_cons] at ih ⊢
    by_cases hk : k0 = k
    · simpa [hk] using ih
    · simpa [hk, hasKey] using ih

/-- handle_incoming never touches the processed-id set or its persisted
mirror. -/
theorem handle_incoming_processed_frame (st : ServerState)
    (phone : Option String) (text : Option (List Char)) :
    (handle_incoming st phone text).processed = st.processed ∧
    (handle_incoming st phone text).persistedProcessed = st.persistedProcessed := by
  cases phone with
  | none => cases text <;> exact ⟨rfl, rfl⟩
  | some p =>
    cases text with
    | none => exact ⟨rfl, rfl⟩
    | some t =>
      simp only [handle_incoming]
      split_ifs <;> exact ⟨rfl, rfl⟩

/-! ## Claim C5: the encoding classifier -/

/-- Claim C5 counterexample: the GSM 7-bit character set of the source
contains 123 distinct glyphs (the 124-character table literal repeats the
space character), not 128 as the claim states. -/
theorem gsm_set_has_123_glyphs :
    GSM_7BIT_SET.dedup.length = 123 ∧ ¬ GSM_7BIT_SET.dedup.length = 128 := by
  decide

/-- Claim C5 (amended): get_chunk_limit is a pure total function
returning exactly 160 for narrow single-part, 153 for narrow multipart,
70 for wide single-part and 67 for wide multipart; a text is narrow iff
every character is in the fixed GSM 7-bit set, which holds 123 distinct
glyphs; None and the empty text are narrow. -/
theorem get_chunk_limit_spec :
    (∀ text mp, get_chunk_limit text mp =
        if is_gsm_7bit text then (if mp then 153 else 160)
        else (if mp then 67 else 70)) ∧
    is_gsm_7bit none = true ∧
    is_gsm_7bit (some []) = true ∧
    (∀ l, is_gsm_7bit (some l) = true ↔ ∀ c ∈ l, c ∈ GSM_7BIT_SET) ∧
    GSM_7BIT_SET.dedup.length = 123 := by
  refine ⟨fun text mp => rfl, rfl, rfl, ?_, by decide⟩
  intro l
  simp [is_gsm_7bit, List.all_eq_true]

/-- Claim C5 witness: the narrowness criterion evaluated at a concrete
string. -/
theorem get_chunk_limit_spec_witness :
    is_gsm_7bit (some "hello world".data) = true :=
  (get_chunk_limit_spec.2.2.2.1 "hello world".data).2 (by decide)

/-! ## Claim C9: unregistered free text has no effect -/

/-- Claim C9: text that is neither chat nor clear, from a phone with no
history record, leaves the whole server state (histories, chats,
processed ids, send queue, worker queue) unchanged. -/
theorem handle_incoming_unregistered_frame (st : ServerState)
    (phone : String) (text : List Char)
    (h1 : ¬ pyLower (pyStrip text) = "chat".data)
    (h2 : ¬ pyLower (pyStrip text) = "clear".data)
    (h3 : hasKey st.histories phone = false) :
    handle_incoming st (some phone) (some text) = st := by
  simp [handle_incoming, h1, h2, h3]

/-- Claim C9 witness: a concrete unregistered sender and free text. -/
theorem handle_incoming_unregistered_frame_witness :
    handle_incoming
      ⟨[("+15550000002", [])], [], ["+15550000002"], [4], [4], [], [], []⟩
      (some "+15550000001") (some "hello there".data) =
      ⟨[("+15550000002", [])], [], ["+15550000002"], [4], [4], [], [], []⟩ :=
  handle_incoming_unregistered_frame _ _ _ (by decide) (by decide) (by decide)

/-! ## Claim C10: the history endpoint limit handling -/

/-- Claim C10: for a registered phone, a limit of 0 is treated as no
limit (the full history is returned, and the response equals the
no-limit response); for every limit value total_count is the full stored
length; a positive limit returns a suffix of the stored history of
length min(stored, limit). -/
theorem get_history_limit_spec (st : ServerState) (phone : String)
    (msgs : List Turn) (h : getKey st.histories phone = some msgs) :
    (get_history st phone (some 0)).messages = msgs ∧
    get_history st phone (some 0) = get_history st phone none ∧
    (∀ limit, (get_history st phone limit).total_count = msgs.length) ∧
    (∀ k : Int, 0 < k →
        (get_history st phone (some k)).messages.length =
          min msgs.length k.toNat ∧
        (get_history st phone (some k)).messages <:+ msgs) := by
  refine ⟨?_, ?_, ?_, ?_⟩
  · simp [get_history, h]
  · simp [get_history, h]
  · intro limit
    cases limit <;> simp [get_history, h]
  · intro k hk
    have hk0 : ¬ k = 0 := by omega
    constructor
    · simp only [get_history, h, hk0, if_false]
      have hkneg : ¬ (0 : Int) ≤ -k := by omega
      simp only [pySliceFrom, hkneg, if_false]
      simp [List.length_drop]
      omega
    · simp only [get_history, h, hk0, if_false]
      simp only [pySliceFrom]
      split <;> exact List.drop_suffix _ _

/-- Claim C10 witness: a two-turn history with limits 0, 1 and none. -/
theorem get_history_limit_spec_witness :
    (get_history
        ⟨[("+15550000003",
           [⟨"user", "hi".data, 5, "inbound"⟩,
            ⟨"assistant", "hello".data, 6, "outbound"⟩])],
          [], [], [], [], [], [], []⟩
        "+15550000003" (some 0)).messages =
      [⟨"user", "hi".data, 5, "inbound"⟩,
       ⟨"assistant", "hello".data, 6, "outbound"⟩] ∧
    (get_history
        ⟨[("+15550000003",
           [⟨"user", "hi".data, 5, "inbound"⟩,
            ⟨"assistant", "hello".data, 6, "outbound"⟩])],
          [], [], [], [], [], [], []⟩
        "+15550000003" (some 1)).messages.length = 1 := by
  constructor
  · exact (get_history_limit_spec _ _ _ (by decide)).1
  · have h := ((get_history_limit_spec
      ⟨[("+15550000003",
         [⟨"user", "hi".data, 5, "inbound"⟩,
          ⟨"assistant", "hello".data, 6, "outbound"⟩])],
        [], [], [], [], [], [], []⟩
      "+15550000003"
      [⟨"user", "hi".data, 5, "inbound"⟩,
       ⟨"assistant", "hello".data, 6, "outbound"⟩]
      (by decide)).2.2.2 1 (by omega)).1
    simpa using h

/-! ## Claim C6: the chat and clear command state machine -/

/-- Claim C6: keyed on the lower-cased trimmed text, chat from an
unregistered sender creates an empty record and enqueues the
registration confirmation; chat from a registered sender leaves the
histories unchanged and enqueues the distinct already-registered
message; chat is idempotent on the histories and never unregisters;
clear removes the record and the chat handle, is a no-op on the
histories when unregistered, and always enqueues its confirmation. -/
theorem handle_chat_clear_spec (st : ServerState) (phone : String)
    (text : List Char) :
    (pyLower (pyStrip text) = "chat".data → hasKey st.histories phone = false →
      (handle_incoming st (some phone) (some text)).histories =
          setKey st.histories phone [] ∧
      getKey (handle_incoming st (some phone) (some text)).histories phone =
          some [] ∧
      (handle_incoming st (some phone) (some text)).sendQueue =
          st.sendQueue ++ [(phone, MSG_REGISTERED)]) ∧
    (pyLower (pyStrip text) = "chat".data → hasKey st.histories phone = true →
      (handle_incoming st (some phone) (some text)).histories = st.histories ∧
      (handle_incoming st (some phone) (some text)).sendQueue =
          st.sendQueue ++ [(phone, MSG_ALREADY)]) ∧
    ¬ MSG_REGISTERED = MSG_ALREADY ∧
    (pyLower (pyStrip text) = "chat".data →
      hasKey (handle_incoming st (some phone) (some text)).histories phone =
          true ∧
      (handle_incoming (handle_incoming st (some phone) (some text))
          (some phone) (some text)).histories =
        (handle_incoming st (some phone) (some text)).histories) ∧
    (pyLower (pyStrip text) = "clear".data →
      (handle_incoming st (some phone) (some text)).histories =
          eraseKey st.histories phone ∧
      hasKey (handle_incoming st (some phone) (some text)).histories phone =
          false ∧
      (handle_incoming st (some phone) (some text)).chats.contains phone =
          false ∧
      (hasKey st.histories phone = false →
        (handle_incoming st (some phone) (some text)).histories =
            st.histories) ∧
      (handle_incoming st (some phone) (some text)).sendQueue =
          st.sendQueue ++ [(phone, MSG_CLEARED)]) := by
  refine ⟨?_, ?_, by decide, ?_, ?_⟩
  · intro hc hr
    simp [handle_incoming, hc, hr, getKey_setKey_self]
  · intro hc hr
    simp [handle_incoming, hc, hr]
  · intro hc
    by_cases hr : hasKey st.histories phone = true
    · simp [handle_incoming, hc, hr]
    · have hr0 : hasKey st.histories phone = false := by
        simpa using hr
      simp [handle_incoming, hc, hr0, hasKey_setKey_self]
  · intro hcl
    have hnc : ¬ pyLower (pyStrip text) = "chat".data := by
      rw [hcl]; decide
    refine ⟨?_, ?_, ?_, ?_, ?_⟩
    · simp [handle_incoming, hcl, hnc]
    · simp [handle_incoming, hcl, hnc, hasKey_eraseKey_self]
    · simp only [handle_incoming, hnc, if_false, hcl, if_pos rfl]
      simp [List.mem_filter]
    · intro hr
      simp [handle_incoming, hcl, hnc, eraseKey_of_not_hasKey _ _ hr]
    · simp [handle_incoming, hcl, hnc]

/-- Claim C6 witness: a fresh registration via an upper-cased padded
CHAT, and a clear of a registered number. -/
theorem handle_chat_clear_spec_witness :
    (handle_incoming ⟨[], [], [], [], [], [], [], []⟩ (some "+1777")
        (some " CHAT ".data)).histories = [("+1777", [])] ∧
    (handle_incoming
        ⟨[("+1777", [⟨"user", "x".data, 1, "inbound"⟩])],
         [], [], [], [], [], [], []⟩
        (some "+1777") (some "Clear".data)).histories = [] := by
  constructor
  · have h := ((handle_chat_clear_spec ⟨[], [], [], [], [], [], [], []⟩
      "+1777" " CHAT ".data).1 (by decide) (by decide)).1
    rw [h]; decide
  · have h := ((handle_chat_clear_spec
      ⟨[("+1777", [⟨"user", "x".data, 1, "inbound"⟩])],
       [], [], [], [], [], [], []⟩
      "+1777" "Clear".data).2.2.2.2 (by decide)).1
    rw [h]; decide

/-! ## Claim C7: polling-loop dedup -/

/-- Claim C7: an id already in the processed set is never forwarded to
the router (the state is untouched and the trace is empty); presenting
the same message twice yields no router invocation on the second pass;
a genuinely new inbox message is routed exactly once, and at the moment
the router runs the id is already in the processed set with the set
persisted. -/
theorem polling_dedup_spec (st : ServerState) (sms : Sms) :
    (∀ i, sms.id = some i → i ∈ st.processed →
        process_sms_traced st sms = (st, [])) ∧
    (process_sms_traced (process_sms st sms) sms).2 = [] ∧
    (∀ i, sms.id = some i → ¬ i = 0 → i ∉ st.processed →
        sms.type = some "inbox" →
        (process_sms_traced st sms).2 = [(sms.number, sms.body)] ∧
        i ∈ (ingest st sms i).processed ∧
        (ingest st sms i).persistedProcessed = (ingest st sms i).processed ∧
        process_sms st sms =
          handle_incoming (ingest st sms i) sms.number (some sms.body)) := by
  refine ⟨?_, ?_, ?_⟩
  · intro i hid hmem
    simp [process_sms_traced, hid, hmem]
  · cases hid : sms.id with
    | none => simp [process_sms_traced, process_sms, hid]
    | some i =>
      by_cases hcond : ¬ i = 0 ∧ i ∉ st.processed ∧ sms.type = some "inbox"
      · have hstep : process_sms st sms =
            handle_incoming (ingest st sms i) sms.number (some sms.body) := by
          simp [process_sms, process_sms_traced, hid, hcond]
        have hproc : (process_sms st sms).processed = st.processed ++ [i] := by
          rw [hstep]
          rw [(handle_incoming_processed_frame (ingest st sms i)
            sms.number (some sms.body)).1]
          rfl
        have hmem : i ∈ (process_sms st sms).processed := by
          rw [hproc]; simp
        simp [process_sms_traced, hid, hmem]
      · have hsame : process_sms st sms = st := by
          simp [process_sms, process_sms_traced, hid, hcond]
        rw [hsame]
        simp [process_sms_traced, hid, hcond]
  · intro i hid h0 hmem htype
    refine ⟨?_, by simp [ingest], rfl, ?_⟩
    · simp [process_sms_traced, hid, h0, hmem, htype]
    · simp [process_sms, process_sms_traced, hid, h0, hmem, htype]

/-- Claim C7 witness: a seen id is not re-routed; a fresh inbox id is
routed once with the processed set updated first. -/
theorem polling_dedup_spec_witness :
    process_sms_traced ⟨[], [], [], [5], [5], [], [], []⟩
        ⟨some 5, some "+1888", "hi".data, some "inbox"⟩ =
      (⟨[], [], [], [5], [5], [], [], []⟩, []) ∧
    (process_sms_traced ⟨[], [], [], [5], [5], [], [], []⟩
        ⟨some 9, some "+1888", "hi".data, some "inbox"⟩).2 =
      [(some "+1888", "hi".data)] ∧
    (9 : Nat) ∈ (ingest ⟨[], [], [], [5], [5], [], [], []⟩
        ⟨some 9, some "+1888", "hi".data, some "inbox"⟩ 9).processed := by
  refine ⟨?_, ?_, ?_⟩
  · exact (polling_dedup_spec ⟨[], [], [], [5], [5], [], [], []⟩
      ⟨some 5, some "+1888", "hi".data, some "inbox"⟩).1 5 rfl (by decide)
  · exact ((polling_dedup_spec ⟨[], [], [], [5], [5], [], [], []⟩
      ⟨some 9, some "+1888", "hi".data, some "inbox"⟩).2.2 9 rfl
      (by decide) (by decide) rfl).1
  · exact ((polling_dedup_spec ⟨[], [], [], [5], [5], [], [], []⟩
      ⟨some 9, some "+1888", "hi".data, some "inbox"⟩).2.2 9 rfl
      (by decide) (by decide) rfl).2.1

/-! ## Claim C8: backend failure drops the job silently -/

/-- Claim C8: if the backend call for the job at the head of the worker
queue fails (either at session creation for a phone with no session, or
at message send), the worker appends no turn, persists nothing and
enqueues no outbound job; the job is removed from the queue without
retry. -/
theorem gemini_backend_failure_spec
    (createSession : String → Except Unit Unit)
    (sendMessage : String → List Char → Except Unit (List Char))
    (ts : Nat) (st : ServerState) (phone : String) (text : List Char)
    (rest : List (String × List Char))
    (hq : st.geminiQueue = (phone, text) :: rest)
    (hfail : (st.chats.contains phone = false ∧
                createSession phone = Except.error ()) ∨
             sendMessage phone text = Except.error ()) :
    (gemini_worker_step createSession sendMessage ts st).histories =
        st.histories ∧
    (gemini_worker_step createSession sendMessage ts st).persistedHistories =
        st.persistedHistories ∧
    (gemini_worker_step createSession sendMessage ts st).persistedProcessed =
        st.persistedProcessed ∧
    (gemini_worker_step createSession sendMessage ts st).sendQueue =
        st.sendQueue ∧
    (gemini_worker_step createSession sendMessage ts st).geminiQueue = rest := by
  have hstep : gemini_worker_step createSession sendMessage ts st =
      gemini_step createSession sendMessage ts
        { st with geminiQueue := rest } phone text := by
    unfold gemini_worker_step
    rw [hq]
  rw [hstep]
  unfold gemini_step
  by_cases hmem : phone ∈ st.chats
  · have hs : sendMessage phone text = Except.error () := by
      rcases hfail with ⟨hc, _⟩ | hs
      · exact absurd hmem (by simpa using hc)
      · exact hs
    simp [hmem, hs]
  · rcases hfail with ⟨_, he⟩ | hs
    · simp [hmem, he]
    · cases hcreate : createSession phone with
      | error e => simp [hmem, hcreate]
      | ok u => simp [hmem, hcreate, hs]

/-- Claim C8 witness: a concrete failing backend on a one-job queue. -/
theorem gemini_backend_failure_spec_witness :
    (gemini_worker_step (fun _ => Except.error ())
        (fun _ _ => Except.error ()) 3
        ⟨[], [], [], [], [], [], [("+1999", "q".data)], []⟩).histories = [] ∧
    (gemini_worker_step (fun _ => Except.error ())
        (fun _ _ => Except.error ()) 3
        ⟨[], [], [], [], [], [], [("+1999", "q".data)], []⟩).sendQueue = [] ∧
    (gemini_worker_step (fun _ => Except.error ())
        (fun _ _ => Except.error ()) 3
        ⟨[], [], [], [], [], [], [("+1999", "q".data)], []⟩).geminiQueue = [] := by
  have h := gemini_backend_failure_spec (fun _ => Except.error ())
    (fun _ _ => Except.error ()) 3
    ⟨[], [], [], [], [], [], [("+1999", "q".data)], []⟩
    "+1999" "q".data [] rfl (Or.inr rfl)
  exact ⟨h.1, h.2.2.2.1, h.2.2.2.2⟩

/-! ## Normalisation lemmas -/

theorem collapse_length_le : ∀ l : List Char, (collapse l).length ≤ l.length
  | [] => by simp [collapse]
  | [c] => by by_cases h : pyIsSpace c <;> simp [collapse, h]
  | c :: d :: rest => by
    by_cases h : pyIsSpace c
    · by_cases h2 : pyIsSpace d
      · simp only [collapse, h, h2, if_true]
        exact le_trans (collapse_length_le (d :: rest)) (by simp)
      · simp only [collapse, h, h2, if_true, if_false, List.length_cons]
        exact Nat.succ_le_succ (collapse_length_le (d :: rest))
    · simp only [collapse, h, if_false, List.length_cons]
      exact Nat.succ_le_succ (collapse_length_le (d :: rest))

theorem mem_collapse {l : List Char} {c : Char} : c ∈ collapse l →
    c ∈ l ∨ c = ' ' := by
  induction l with
  | nil => simp [collapse]
  | cons a rest ih =>
    cases rest with
    | nil =>
      by_cases h : pyIsSpace a <;> simp [collapse, h] <;> intro h2 <;> simp [h2]
    | cons d rest2 =>
      by_cases h : pyIsSpace a
      · by_cases h2 : pyIsSpace d
        · simp only [collapse, h, h2, if_true]
          intro hm
          rcases ih hm with hm2 | hm2
          · exact Or.inl (List.mem_cons_of_mem _ hm2)
          · exact Or.inr hm2
        · simp only [collapse, h, h2, if_true, if_false]
          intro hm0
          rcases List.mem_cons.mp hm0 with h3 | hm
          · exact Or.inr h3
          · rcases ih hm with hm2 | hm2
            · exact Or.inl (List.mem_cons_of_mem _ hm2)
            · exact Or.inr hm2
      · simp only [collapse, h, if_false]
        intro hm0
        rcases List.mem_cons.mp hm0 with h3 | hm
        · exact Or.inl (by rw [h3]; exact List.mem_cons_self _ _)
        · rcases ih hm with hm2 | hm2
          · exact Or.inl (List.mem_cons_of_mem _ hm2)
          · exact Or.inr hm2

/-- pyStrip only removes characters from the two ends. -/
theorem pyStrip_infix_self (l : List Char) : pyStrip l <:+: l := by
  have h1 : l.dropWhile pyIsSpace <:+ l := List.dropWhile_suffix pyIsSpace
  have h2 : (l.dropWhile pyIsSpace).reverse.dropWhile pyIsSpace <:+
      (l.dropWhile pyIsSpace).reverse := List.dropWhile_suffix pyIsSpace
  have h3 : pyStrip l <+: l.dropWhile pyIsSpace := by
    have := List.reverse_prefix.mpr h2
    simpa [pyStrip] using this
  exact h3.isInfix.trans h1.isInfix

theorem pyStrip_sublist (l : List Char) : List.Sublist (pyStrip l) l :=
  (pyStrip_infix_self l).sublist

theorem normalize_length_le (l : List Char) : (normalize l).length ≤ l.length :=
  le_trans ((pyStrip_sublist (collapse l)).length_le) (collapse_length_le l)

theorem mem_normalize {l : List Char} {c : Char} (h : c ∈ normalize l) :
    c ∈ l ∨ c = ' ' :=
  mem_collapse ((pyStrip_sublist (collapse l)).subset h)

/-- Narrow text stays narrow under normalisation (the space is in the
GSM set). -/
theorem normalize_gsm {l : List Char} (h : is_gsm_7bit (some l) = true) :
    is_gsm_7bit (some (normalize l)) = true := by
  simp only [is_gsm_7bit, List.all_eq_true] at h ⊢
  intro c hc
  rcases mem_normalize hc with hm | hm
  · exact h c hm
  · subst hm; decide

/-! ## Claim C4: short narrow text is a single segment -/

/-- Claim C4 counterexample: a whitespace-only text of length at most
160 made of narrow characters yields zero segments, not one. -/
theorem chunk_whitespace_empty :
    is_gsm_7bit (some [' ']) = true ∧ ([' '] : List Char).length ≤ 160 ∧
    ¬ (chunk_text_smart (some [' '])).length = 1 := by
  decide

/-- Claim C4 (amended): for text of length at most 160 composed only of
narrow characters, whose whitespace-normalised form is non-empty,
chunk_text_smart returns exactly one segment, equal to the normalised
text. -/
theorem chunk_single_segment (raw : List Char)
    (hgsm : is_gsm_7bit (some raw) = true) (hlen : raw.length ≤ 160)
    (hne : ¬ normalize raw = []) :
    chunk_text_smart (some raw) = [normalize raw] := by
  have hg : is_gsm_7bit (some (normalize raw)) = true := normalize_gsm hgsm
  have hl : (normalize raw).length ≤ get_chunk_limit (some (normalize raw)) false := by
    rw [get_chunk_limit, hg]
    exact le_trans (normalize_length_le raw) (by simpa using hlen)
  simp [chunk_text_smart, hne, hl]

/-- Claim C4 witness: a concrete short narrow text. -/
theorem chunk_single_segment_witness :
    chunk_text_smart (some "hello   world".data) = ["hello world".data] := by
  have h := chunk_single_segment "hello   world".data (by decide) (by decide)
    (by decide)
  rw [h]; decide

/-! ## Long-word splitting lemmas -/

theorem get_chunk_limit_pos (t : Option (List Char)) (b : Bool) :
    1 ≤ get_chunk_limit t b := by
  unfold get_chunk_limit
  split <;> split <;> omega

theorem get_chunk_limit_multipart_le (t : Option (List Char)) :
    get_chunk_limit t true ≤ 153 := by
  unfold get_chunk_limit
  split <;> simp

theorem findSplitAux_le (rem : List Char) : ∀ k, findSplitAux rem k ≤ k
  | 0 => le_refl 0
  | k + 1 => by
    unfold findSplitAux
    split
    · exact le_refl _
    · exact le_trans (findSplitAux_le rem k) (Nat.le_succ k)

theorem findSplitAux_pos (rem : List Char) : ∀ k, 0 < k →
    0 < findSplitAux rem k
  | 0, h => absurd h (by omega)
  | k + 1, _ => by
    unfold findSplitAux
    split
    · omega
    · rename_i hcond
      cases k with
      | zero =>
        exact absurd (get_chunk_limit_pos (some (rem.take 1)) true) hcond
      | succ k2 => exact findSplitAux_pos rem (k2 + 1) (by omega)

theorem findSplitAux_spec (rem : List Char) : ∀ k, 0 < findSplitAux rem k →
    findSplitAux rem k ≤
      get_chunk_limit (some (rem.take (findSplitAux rem k))) true
  | 0, h => absurd h (by simp [findSplitAux])
  | k + 1, h => by
    by_cases hcond : k + 1 ≤ get_chunk_limit (some (rem.take (k + 1))) true
    · unfold findSplitAux
      rw [if_pos hcond]
      exact hcond
    · unfold findSplitAux at h ⊢
      rw [if_neg hcond] at h ⊢
      exact findSplitAux_spec rem k h

theorem findSplit_pos {rem : List Char} (h : ¬ rem = []) : 0 < findSplit rem :=
  findSplitAux_pos rem rem.length (by
    cases rem with
    | nil => exact absurd rfl h
    | cons a l => simp)

theorem findSplit_le (rem : List Char) : findSplit rem ≤ rem.length :=
  findSplitAux_le rem rem.length

theorem findSplit_spec {rem : List Char} (h : 0 < findSplit rem) :
    findSplit rem ≤ get_chunk_limit (some (rem.take (findSplit rem))) true :=
  findSplitAux_spec rem rem.length h

theorem sumLen_append (xs ys : List (List Char)) :
    sumLen (xs ++ ys) = sumLen xs + sumLen ys := by
  induction xs with
  | nil => simp [sumLen]
  | cons a l ih => simp [sumLen, List.foldr_cons] at ih ⊢; omega

theorem flat_append (xs ys : List (List Char)) :
    flat (xs ++ ys) = flat xs ++ flat ys := by
  induction xs with
  | nil => simp [flat]
  | cons a l ih => simp [flat, List.foldr_cons] at ih ⊢; simp [ih]

theorem sumLen_eq_length_flat (ps : List (List Char)) :
    sumLen ps = (flat ps).length := by
  induction ps with
  | nil => rfl
  | cons a l ih => simp [sumLen, flat, List.foldr_cons] at ih ⊢; omega

/-- The long-word splitter reassembles to the input word (given enough
fuel, which splitLongWord always supplies). -/
theorem flat_splitLongWordFuel : ∀ (fuel : Nat) (rem : List Char),
    rem.length ≤ fuel → flat (splitLongWordFuel fuel rem) = rem
  | 0, rem, h => by
    have hrem : rem = [] := by
      cases rem with
      | nil => rfl
      | cons a l => simp at h
    subst hrem
    rfl
  | fuel + 1, rem, h => by
    cases rem with
    | nil => simp [splitLongWordFuel, flat]
    | cons a l =>
      have hne : ¬ (a :: l) = [] := by simp
      have hpos : 0 < findSplit (a :: l) := findSplit_pos hne
      have hstep : splitLongWordFuel (fuel + 1) (a :: l) =
          (a :: l).take (findSplit (a :: l)) ::
            splitLongWordFuel fuel ((a :: l).drop (findSplit (a :: l))) := by
        unfold splitLongWordFuel
        rw [if_neg (by omega)]
        congr 1
        exact splitLongWordFuel.eq_def fuel _
      rw [hstep]
      have hlen : ((a :: l).drop (findSplit (a :: l))).length ≤ fuel := by
        simp only [List.length_drop]
        simp only [List.length_cons] at h ⊢
        omega
      have ih := flat_splitLongWordFuel fuel
        ((a :: l).drop (findSplit (a :: l))) hlen
      simp only [flat, List.foldr_cons] at ih ⊢
      rw [ih, List.take_append_drop]

theorem flat_splitLongWord (rem : List Char) :
    flat (splitLongWord rem) = rem :=
  flat_splitLongWordFuel rem.length rem (le_refl _)

/-- Every part emitted by the long-word splitter fits its own multipart
limit. -/
theorem splitLongWordFuel_le : ∀ (fuel : Nat) (rem : List Char),
    ∀ p ∈ splitLongWordFuel fuel rem,
      p.length ≤ get_chunk_limit (some p) true
  | 0, rem => by simp [splitLongWordFuel]
  | fuel + 1, rem => by
    cases rem with
    | nil => simp [splitLongWordFuel]
    | cons a l =>
      by_cases hzero : findSplit (a :: l) = 0
      · unfold splitLongWordFuel
        rw [if_pos hzero]
        simp
      · have hstep : splitLongWordFuel (fuel + 1) (a :: l) =
            (a :: l).take (findSplit (a :: l)) ::
              splitLongWordFuel fuel ((a :: l).drop (findSplit (a :: l))) := by
          unfold splitLongWordFuel
          rw [if_neg hzero]
          congr 1
          exact splitLongWordFuel.eq_def fuel _
        rw [hstep]
        intro p hp
        rcases List.mem_cons.mp hp with hhd | htl
        · subst hhd
          have hpos : 0 < findSplit (a :: l) := by omega
          have hspec := findSplit_spec hpos
          have hlen : ((a :: l).take (findSplit (a :: l))).length =
              findSplit (a :: l) := by
            rw [List.length_take]
            have := findSplit_le (a :: l)
            omega
          rw [hlen]
          exact hspec
        · exact splitLongWordFuel_le fuel ((a :: l).drop (findSplit (a :: l)))
            p htl

theorem splitLongWord_le (rem : List Char) :
    ∀ p ∈ splitLongWord rem, p.length ≤ get_chunk_limit (some p) true :=
  splitLongWordFuel_le rem.length rem

theorem splitLongWord_ne_nil {rem : List Char} (h : ¬ rem = []) :
    ¬ splitLongWord rem = [] := by
  cases rem with
  | nil => exact absurd rfl h
  | cons a l =>
    have hpos : 0 < findSplit (a :: l) := findSplit_pos (by simp)
    show ¬ splitLongWordFuel ((a :: l).length) (a :: l) = []
    simp only [List.length_cons]
    unfold splitLongWordFuel
    rw [if_neg (by omega)]
    simp

/-! ## The word packer bounds every chunk by its own multipart limit -/

theorem packWords_le : ∀ (ws chunks : List (List Char)) (current : List Char),
    (∀ c ∈ chunks, c.length ≤ get_chunk_limit (some c) true) →
    current.length ≤ get_chunk_limit (some current) true →
    ∀ c ∈ packWords chunks current ws,
      c.length ≤ get_chunk_limit (some c) true
  | [], chunks, current, hc, hcur => by
    unfold packWords
    split
    · exact hc
    · intro c hm
      rcases List.mem_append.mp hm with h1 | h2
      · exact hc c h1
      · rw [List.mem_singleton] at h2
        subst h2
        exact hcur
  | word :: ws, chunks, current, hc, hcur => by
    by_cases hfit : (if current = [] then word else
        current ++ ' ' :: word).length ≤
      get_chunk_limit
        (some (if current = [] then word else current ++ ' ' :: word)) true
    · have hstep : packWords chunks current (word :: ws) =
          packWords chunks
            (if current = [] then word else current ++ ' ' :: word) ws := by
        simp only [packWords, hfit, if_true]
      rw [hstep]
      exact packWords_le ws chunks _ hc hfit
    · by_cases hlong : get_chunk_limit (some word) true < word.length
      · have hstep : packWords chunks current (word :: ws) =
            packWords ((if current = [] then chunks else chunks ++ [current])
              ++ splitLongWord word) [] ws := by
          simp only [packWords, hfit, hlong, if_true, if_false]
        rw [hstep]
        refine packWords_le ws _ [] ?_ (by simp)
        intro c hm
        rcases List.mem_append.mp hm with h1 | h2
        · by_cases hce : current = []
          · rw [if_pos hce] at h1
            exact hc c h1
          · rw [if_neg hce] at h1
            rcases List.mem_append.mp h1 with h3 | h4
            · exact hc c h3
            · rw [List.mem_singleton] at h4
              subst h4
              exact hcur
        · exact splitLongWord_le word c h2
      · have hstep : packWords chunks current (word :: ws) =
            packWords (if current = [] then chunks else chunks ++ [current])
              word ws := by
          simp only [packWords, hfit, hlong, if_true, if_false]
        rw [hstep]
        refine packWords_le ws _ word ?_ (by omega)
        intro c hm
        by_cases hce : current = []
        · rw [if_pos hce] at hm
          exact hc c hm
        · rw [if_neg hce] at hm
          rcases List.mem_append.mp hm with h3 | h4
          · exact hc c h3
          · rw [List.mem_singleton] at h4
            subst h4
            exact hcur

/-! ## Claim C1: per-segment limits for wide text -/

/-- Claim C1 counterexample: a text with one wide character and length
above 70 can produce a narrow segment far longer than 67 (here length
100), because the chunker grants each chunk the limit of its own
encoding. -/
theorem chunk_wide_long_segment :
    is_gsm_7bit (some (List.replicate 100 'a' ++ [' ', '✓'])) = false ∧
    70 < (List.replicate 100 'a' ++ [' ', '✓']).length ∧
    ∃ s ∈ chunk_text_smart (some (List.replicate 100 'a' ++ [' ', '✓'])),
      67 < s.length := by
  decide

/-- Claim C1 (amended): for text whose normalised form contains a wide
character and exceeds 70 characters, every returned segment is within
its own multipart limit: at most 153 always, and at most 67 whenever
the segment itself contains a wide character. -/
theorem chunk_wide_limits (raw : List Char)
    (hw : is_gsm_7bit (some (normalize raw)) = false)
    (hlen : 70 < (normalize raw).length) :
    ∀ s ∈ chunk_text_smart (some raw),
      s.length ≤ 153 ∧ (is_gsm_7bit (some s) = false → s.length ≤ 67) := by
  have hne : ¬ normalize raw = [] := by
    intro h
    rw [h] at hlen
    simp at hlen
  have hnotle : ¬ (normalize raw).length ≤
      get_chunk_limit (some (normalize raw)) false := by
    rw [get_chunk_limit, hw]
    simp
    omega
  have hch : chunk_text_smart (some raw) =
      packWords [] [] (splitOnSpace (normalize raw)) := by
    simp [chunk_text_smart, hne, hnotle]
  rw [hch]
  intro s hs
  have h := packWords_le (splitOnSpace (normalize raw)) [] []
    (by simp) (by simp) s hs
  refine ⟨le_trans h (get_chunk_limit_multipart_le _), ?_⟩
  intro hsw
  rw [get_chunk_limit, hsw] at h
  simpa using h

/-- Claim C1 witness: a single all-wide word of length 80 produces a
first segment of exactly 67 wide characters. -/
theorem chunk_wide_limits_witness :
    (List.replicate 67 '✓') ∈
      chunk_text_smart (some (List.replicate 80 '✓')) ∧
    (List.replicate 67 '✓').length ≤ 153 ∧
    (List.replicate 67 '✓').length ≤ 67 := by
  have hm : (List.replicate 67 '✓') ∈
      chunk_text_smart (some (List.replicate 80 '✓')) := by decide
  have h := chunk_wide_limits (List.replicate 80 '✓') (by decide) (by decide)
    _ hm
  exact ⟨hm, h.1, h.2 (by decide)⟩

/-! ## Whitespace-free input passes through normalisation unchanged -/

theorem collapse_no_space : ∀ l : List Char,
    (∀ c ∈ l, pyIsSpace c = false) → collapse l = l
  | [], _ => rfl
  | [c], h => by
    have hc := h c (by simp)
    simp [collapse, hc]
  | c :: d :: rest, h => by
    have hc := h c (by simp)
    simp only [collapse, hc, Bool.false_eq_true, if_false, List.cons.injEq,
      true_and]
    exact collapse_no_space (d :: rest) fun x hx =>
      h x (List.mem_cons_of_mem _ hx)

theorem dropWhile_no_space (l : List Char)
    (h : ∀ c ∈ l, pyIsSpace c = false) : l.dropWhile pyIsSpace = l := by
  cases l with
  | nil => rfl
  | cons a m =>
    have ha := h a (by simp)
    simp [List.dropWhile_cons, ha]

theorem pyStrip_no_space (l : List Char)
    (h : ∀ c ∈ l, pyIsSpace c = false) : pyStrip l = l := by
  unfold pyStrip
  rw [dropWhile_no_space l h]
  rw [dropWhile_no_space l.reverse (fun c hc => h c (by simpa using hc))]
  exact List.reverse_reverse l

theorem normalize_no_space (l : List Char)
    (h : ∀ c ∈ l, pyIsSpace c = false) : normalize l = l := by
  unfold normalize
  rw [collapse_no_space l h, pyStrip_no_space l h]

theorem splitOnSpace_no_space : ∀ l : List Char,
    (∀ c ∈ l, ¬ c = ' ') → splitOnSpace l = [l]
  | [], _ => rfl
  | c :: rest, h => by
    have hc := h c (by simp)
    have ih := splitOnSpace_no_space rest fun x hx =>
      h x (List.mem_cons_of_mem _ hx)
    simp only [splitOnSpace, hc, if_false, ih]

/-! ## The long-word splitter on all-wide words -/

theorem is_gsm_head_wide (a : Char) (l : List Char)
    (h : GSM_7BIT_SET.contains a = false) :
    is_gsm_7bit (some (a :: l)) = false := by
  simp only [is_gsm_7bit, List.all_cons, h, Bool.false_and]

theorem findSplitAux_wide (a : Char) (l : List Char)
    (ha : GSM_7BIT_SET.contains a = false) :
    ∀ k, findSplitAux (a :: l) k = min k 67
  | 0 => rfl
  | k + 1 => by
    have hlim : get_chunk_limit (some ((a :: l).take (k + 1))) true = 67 := by
      rw [List.take_succ_cons, get_chunk_limit, is_gsm_head_wide a _ ha]
      simp
    unfold findSplitAux
    rw [hlim]
    by_cases hk : k + 1 ≤ 67
    · rw [if_pos hk]
      omega
    · rw [if_neg hk, findSplitAux_wide a l ha k]
      omega

theorem findSplit_wide (a : Char) (l : List Char)
    (ha : GSM_7BIT_SET.contains a = false) :
    findSplit (a :: l) = min (l.length + 1) 67 := by
  unfold findSplit
  rw [show (a :: l).length = l.length + 1 from rfl]
  exact findSplitAux_wide a l ha (l.length + 1)

theorem splitLongWordFuel_ne_nil (fuel : Nat) (rem : List Char)
    (hf : 0 < fuel) (hr : ¬ rem = []) :
    ¬ splitLongWordFuel fuel rem = [] := by
  cases fuel with
  | zero => omega
  | succ f =>
    cases rem with
    | nil => exact absurd rfl hr
    | cons a m =>
      have hpos : 0 < findSplit (a :: m) := findSplit_pos (by simp)
      unfold splitLongWordFuel
      rw [if_neg (by omega)]
      simp

/-- On an all-wide word the splitter produces parts of exactly 67
characters, except possibly the last, which is at most 67. -/
theorem splitLongWordFuel_wide : ∀ (fuel : Nat) (rem : List Char),
    rem.length ≤ fuel → (∀ c ∈ rem, GSM_7BIT_SET.contains c = false) →
    (∀ p ∈ splitLongWordFuel fuel rem, p.length ≤ 67) ∧
    (∀ p ∈ (splitLongWordFuel fuel rem).dropLast, p.length = 67)
  | 0, rem, h, _ => by
    have hrem : rem = [] := by
      cases rem with
      | nil => rfl
      | cons a m => simp at h
    subst hrem
    simp [splitLongWordFuel]
  | fuel + 1, rem, h, hw => by
    cases rem with
    | nil => simp [splitLongWordFuel]
    | cons a m =>
      have ha := hw a (by simp)
      have hfs : findSplit (a :: m) = min (m.length + 1) 67 :=
        findSplit_wide a m ha
      have hpos : 0 < findSplit (a :: m) := findSplit_pos (by simp)
      have hstep : splitLongWordFuel (fuel + 1) (a :: m) =
          (a :: m).take (findSplit (a :: m)) ::
            splitLongWordFuel fuel ((a :: m).drop (findSplit (a :: m))) := by
        unfold splitLongWordFuel
        rw [if_neg (by omega)]
        congr 1
        exact splitLongWordFuel.eq_def fuel _
      rw [hstep]
      by_cases hshort : m.length + 1 ≤ 67
      · have hi : findSplit (a :: m) = m.length + 1 := by omega
        have htake : (a :: m).take (findSplit (a :: m)) = a :: m := by
          rw [hi, show m.length + 1 = (a :: m).length from rfl]
          exact List.take_length (a :: m)
        have hdrop : (a :: m).drop (findSplit (a :: m)) = [] := by
          rw [hi]
          simp
        rw [htake, hdrop]
        have hnil : splitLongWordFuel fuel ([] : List Char) = [] := by
          cases fuel <;> rfl
        rw [hnil]
        constructor
        · intro p hp
          rw [List.mem_singleton] at hp
          subst hp
          simp
          omega
        · simp
      · have hi : findSplit (a :: m) = 67 := by omega
        have hlen67 : ((a :: m).take (findSplit (a :: m))).length = 67 := by
          rw [List.length_take, hi]
          simp only [List.length_cons]
          omega
        have hdlen : ((a :: m).drop (findSplit (a :: m))).length ≤ fuel := by
          simp only [List.length_drop, List.length_cons]
          simp only [List.length_cons] at h
          omega
        have hdw : ∀ c ∈ (a :: m).drop (findSplit (a :: m)),
            GSM_7BIT_SET.contains c = false :=
          fun c hc => hw c (List.mem_of_mem_drop hc)
        have ih := splitLongWordFuel_wide fuel
          ((a :: m).drop (findSplit (a :: m))) hdlen hdw
        have hdne : ¬ (a :: m).drop (findSplit (a :: m)) = [] := by
          intro hcon
          have := congrArg List.length hcon
          simp only [List.length_drop, List.length_cons, List.length_nil]
            at this
          omega
        have hfpos : 0 < fuel := by
          simp only [List.length_cons] at h
          omega
        have hrne : ¬ splitLongWordFuel fuel
            ((a :: m).drop (findSplit (a :: m))) = [] :=
          splitLongWordFuel_ne_nil fuel _ hfpos hdne
        constructor
        · intro p hp
          rcases List.mem_cons.mp hp with hhd | htl
          · subst hhd
            omega
          · exact ih.1 p htl
        · rw [List.dropLast_cons_of_ne_nil hrne]
          intro p hp
          rcases List.mem_cons.mp hp with hhd | htl
          · subst hhd
            exact hlen67
          · exact ih.2 p htl

/-! ## Claim C3: a lone 250-character wide word -/

/-- Claim C3: a single word of length 250 that contains only wide,
non-whitespace characters is split into segments of length at most 67,
all segments before the last have length exactly 67, and concatenating
the segments in order reconstructs the word exactly. -/
theorem chunk_long_wide_word (w : List Char) (hlen : w.length = 250)
    (hchar : ∀ c ∈ w, GSM_7BIT_SET.contains c = false ∧ pyIsSpace c = false) :
    (∀ s ∈ chunk_text_smart (some w), s.length ≤ 67) ∧
    (∀ s ∈ (chunk_text_smart (some w)).dropLast, s.length = 67) ∧
    flat (chunk_text_smart (some w)) = w := by
  have hwide : is_gsm_7bit (some w) = false := by
    cases w with
    | nil => simp at hlen
    | cons a m => exact is_gsm_head_wide a m (hchar a (by simp)).1
  have hnorm : normalize w = w :=
    normalize_no_space w (fun c hc => (hchar c hc).2)
  have hsplit1 : splitOnSpace w = [w] := by
    refine splitOnSpace_no_space w (fun c hc hsp => ?_)
    have h2 := (hchar c hc).2
    subst hsp
    exact absurd h2 (by decide)
  have hne : ¬ w = [] := by
    intro hc
    rw [hc] at hlen
    simp at hlen
  have hnotle : ¬ w.length ≤ get_chunk_limit (some w) false := by
    rw [get_chunk_limit, hwide]
    simp
    omega
  have hch : chunk_text_smart (some w) = packWords [] [] [w] := by
    simp [chunk_text_smart, hnorm, hne, hnotle, hsplit1]
  have h67 : get_chunk_limit (some w) true = 67 := by
    rw [get_chunk_limit, hwide]
    simp
  have hfit : ¬ (w.length ≤ get_chunk_limit (some w) true) := by
    rw [h67]
    omega
  have hlong : get_chunk_limit (some w) true < w.length := by
    rw [h67]
    omega
  have hpack : packWords [] [] [w] = splitLongWord w := by
    simp [packWords, hfit, hlong]
  rw [hch, hpack]
  have hext := splitLongWordFuel_wide w.length w (le_refl _)
    (fun c hc => (hchar c hc).1)
  exact ⟨hext.1, hext.2, flat_splitLongWord w⟩

/-- Claim C3 witness: 250 check-mark characters split as 67+67+67+49 and
reassemble exactly. -/
theorem chunk_long_wide_word_witness :
    flat (chunk_text_smart (some (List.replicate 250 '✓'))) =
      List.replicate 250 '✓' ∧
    (List.replicate 49 '✓').length ≤ 67 ∧
    (List.replicate 49 '✓') ∈
      chunk_text_smart (some (List.replicate 250 '✓')) := by
  have h := chunk_long_wide_word (List.replicate 250 '✓') (by decide)
    (by decide)
  have hm : (List.replicate 49 '✓') ∈
      chunk_text_smart (some (List.replicate 250 '✓')) := by decide
  exact ⟨h.2.2, h.1 _ hm, hm⟩

/-! ## splitOnSpace algebra -/

theorem splitOnSpace_ne_nil : ∀ l : List Char, ¬ splitOnSpace l = []
  | [] => by simp [splitOnSpace]
  | c :: rest => by
    by_cases hc : c = ' '
    · simp [splitOnSpace, hc]
    · simp only [splitOnSpace, hc, if_false]
      cases hs : splitOnSpace rest <;> simp

theorem joinWords_splitOnSpace : ∀ l : List Char,
    joinWords (splitOnSpace l) = l
  | [] => rfl
  | c :: rest => by
    have ih := joinWords_splitOnSpace rest
    by_cases hc : c = ' '
    · subst hc
      simp only [splitOnSpace, if_pos rfl]
      cases hs : splitOnSpace rest with
      | nil => exact absurd hs (splitOnSpace_ne_nil rest)
      | cons w ws =>
        rw [hs] at ih
        simp only [joinWords, List.nil_append]
        rw [ih]
    · simp only [splitOnSpace, hc, if_false]
      cases hs : splitOnSpace rest with
      | nil => exact absurd hs (splitOnSpace_ne_nil rest)
      | cons w ws =>
        rw [hs] at ih
        cases ws with
        | nil =>
          simp only [joinWords] at ih ⊢
          rw [ih]
        | cons w2 ws2 =>
          simp only [joinWords] at ih ⊢
          rw [List.cons_append, ih]

theorem joinWords_length : ∀ ps : List (List Char), ¬ ps = [] →
    sumLen ps + ps.length = (joinWords ps).length + 1
  | [], h => absurd rfl h
  | [w], _ => by simp [sumLen, joinWords]
  | w :: w2 :: ps, _ => by
    have ih := joinWords_length (w2 :: ps) (by simp)
    simp only [sumLen, List.foldr_cons, joinWords, List.length_cons,
      List.length_append] at ih ⊢
    omega

theorem sumLen_le_mul (ps : List (List Char))
    (h : ∀ c ∈ ps, c.length ≤ 153) : sumLen ps ≤ 153 * ps.length := by
  induction ps with
  | nil => simp [sumLen]
  | cons a l ih =>
    have ha := h a (by simp)
    have ih2 := ih fun c hc => h c (List.mem_cons_of_mem _ hc)
    simp only [sumLen, List.foldr_cons, List.length_cons] at ih2 ⊢
    have : 153 * (l.length + 1) = 153 * l.length + 153 := by ring
    omega

/-! ## The normalised text has no leading, trailing or double spaces -/

theorem collapse_head (d : Char) (rest : List Char)
    (h : pyIsSpace d = false) : ∃ t, collapse (d :: rest) = d :: t := by
  cases rest with
  | nil => exact ⟨[], by simp [collapse, h]⟩
  | cons e r2 => exact ⟨collapse (e :: r2), by simp [collapse, h]⟩

theorem collapse_chain : ∀ l : List Char,
    List.Chain' (fun x y : Char => x = ' ' → ¬ y = ' ') (collapse l)
  | [] => by simp [collapse]
  | [c] => by
    by_cases h : pyIsSpace c <;> simp [collapse, h]
  | c :: d :: rest => by
    by_cases h : pyIsSpace c
    · by_cases h2 : pyIsSpace d
      · simpa [collapse, h, h2] using collapse_chain (d :: rest)
      · have h2f : pyIsSpace d = false := by simpa using h2
        simp only [collapse, h, h2, if_true, if_false, Bool.false_eq_true]
        rw [List.chain'_cons']
        refine ⟨?_, collapse_chain (d :: rest)⟩
        intro b hb
        obtain ⟨t, ht⟩ := collapse_head d rest h2f
        rw [ht] at hb
        simp only [List.head?_cons, Option.mem_def, Option.some.injEq] at hb
        subst hb
        intro _ hd
        subst hd
        exact absurd h2f (by decide)
    · simp only [collapse, h, if_false, Bool.false_eq_true]
      rw [List.chain'_cons']
      refine ⟨?_, collapse_chain (d :: rest)⟩
      intro b _ hc
      subst hc
      exact absurd h (by decide)

/-- Every space in the normalised text is an ASCII space that is not
followed by another space. -/
theorem normalize_chain (raw : List Char) :
    List.Chain' (fun x y : Char => x = ' ' → ¬ y = ' ') (normalize raw) :=
  List.Chain'.infix (collapse_chain raw) (pyStrip_infix_self (collapse raw))

theorem normalize_head_not_space (raw : List Char)
    (hne : ¬ normalize raw = []) : ¬ (normalize raw).head? = some ' ' := by
  have hpre : pyStrip (collapse raw) <+:
      (collapse raw).dropWhile pyIsSpace := by
    have h2 : ((collapse raw).dropWhile pyIsSpace).reverse.dropWhile pyIsSpace
        <:+ ((collapse raw).dropWhile pyIsSpace).reverse :=
      List.dropWhile_suffix pyIsSpace
    have := List.reverse_prefix.mpr h2
    simpa [pyStrip] using this
  cases hz : normalize raw with
  | nil => exact absurd hz hne
  | cons a t =>
    have hz2 : pyStrip (collapse raw) = a :: t := hz
    rw [hz2] at hpre
    obtain ⟨s, hs⟩ := hpre
    have hyne : ¬ (collapse raw).dropWhile pyIsSpace = [] := by
      intro hcon
      rw [hcon] at hs
      simp at hs
    have hhead := List.head_dropWhile_not pyIsSpace (collapse raw) hyne
    have hysome : ((collapse raw).dropWhile pyIsSpace).head? = some a := by
      rw [← hs]
      simp
    have hysome2 : ((collapse raw).dropWhile pyIsSpace).head? =
        some (((collapse raw).dropWhile pyIsSpace).head hyne) :=
      List.head?_eq_head hyne
    have ha : ((collapse raw).dropWhile pyIsSpace).head hyne = a :=
      Option.some_inj.mp (hysome2.symm.trans hysome)
    rw [ha] at hhead
    simp only [List.head?_cons]
    intro hcon
    rw [Option.some.injEq] at hcon
    subst hcon
    exact absurd hhead (by decide)

theorem normalize_getLast_not_space (raw : List Char)
    (hne : ¬ normalize raw = []) :
    ¬ (normalize raw).getLast? = some ' ' := by
  have hrev : (normalize raw).reverse =
      ((collapse raw).dropWhile pyIsSpace).reverse.dropWhile pyIsSpace := by
    simp [normalize, pyStrip]
  have hrne : ¬ (normalize raw).reverse = [] := by
    simpa using hne
  rw [List.getLast?_eq_head?_reverse]
  cases hz : (normalize raw).reverse with
  | nil => exact absurd hz hrne
  | cons a t =>
    have hyne : ¬ ((collapse raw).dropWhile pyIsSpace).reverse.dropWhile
        pyIsSpace = [] := by
      rw [← hrev, hz]
      simp
    have hhead := List.head_dropWhile_not pyIsSpace
      ((collapse raw).dropWhile pyIsSpace).reverse hyne
    have hysome : (((collapse raw).dropWhile pyIsSpace).reverse.dropWhile
        pyIsSpace).head? = some a := by
      rw [← hrev, hz]
      simp
    have hysome2 : (((collapse raw).dropWhile pyIsSpace).reverse.dropWhile
        pyIsSpace).head? = some ((((collapse raw).dropWhile
          pyIsSpace).reverse.dropWhile pyIsSpace).head hyne) :=
      List.head?_eq_head hyne
    have ha : (((collapse raw).dropWhile pyIsSpace).reverse.dropWhile
        pyIsSpace).head hyne = a :=
      Option.some_inj.mp (hysome2.symm.trans hysome)
    rw [ha] at hhead
    simp only [List.head?_cons]
    intro hcon
    rw [Option.some.injEq] at hcon
    subst hcon
    exact absurd hhead (by decide)

/-- If a list has no leading space, no trailing space and no two
adjacent spaces, then splitting it on spaces yields only non-empty
pieces. -/
theorem splitOnSpace_parts : ∀ l : List Char,
    List.Chain' (fun x y : Char => x = ' ' → ¬ y = ' ') l →
    ¬ l.getLast? = some ' ' →
    (∀ p ∈ (splitOnSpace l).tail, ¬ p = []) ∧
    (¬ l.head? = some ' ' → ¬ l = [] → ∀ p ∈ splitOnSpace l, ¬ p = [])
  | [], _, _ => by
    refine ⟨by simp [splitOnSpace], ?_⟩
    intro _ h
    exact absurd rfl h
  | [c], _, hlast => by
    have hc : ¬ c = ' ' := by
      intro hcon
      apply hlast
      rw [hcon]
      rfl
    have hsp : splitOnSpace [c] = [[c]] := by
      simp [splitOnSpace, hc]
    rw [hsp]
    refine ⟨by simp, ?_⟩
    intro _ _ p hp
    rw [List.mem_singleton] at hp
    subst hp
    simp
  | c :: d :: rest, hchain, hlast => by
    have hlast2 : ¬ (d :: rest).getLast? = some ' ' := by
      intro hcon
      apply hlast
      rw [List.getLast?_cons_cons]
      exact hcon
    have hchain2 : List.Chain' (fun x y : Char => x = ' ' → ¬ y = ' ')
        (d :: rest) := hchain.tail
    have ih := splitOnSpace_parts (d :: rest) hchain2 hlast2
    by_cases hc : c = ' '
    · have hd : ¬ d = ' ' := by
        have hr := (List.chain'_cons'.mp hchain).1
        exact hr d (by simp) hc
      have hall := ih.2 (by simp [hd]) (by simp)
      have hsp : splitOnSpace (c :: d :: rest) =
          [] :: splitOnSpace (d :: rest) := by
        simp [splitOnSpace, hc]
      rw [hsp]
      refine ⟨by simpa using hall, ?_⟩
      intro hh _
      rw [show (c :: d :: rest).head? = some c from rfl, hc] at hh
      exact absurd rfl hh
    · obtain ⟨w, ws, hws⟩ : ∃ w ws, splitOnSpace (d :: rest) = w :: ws := by
        cases hs : splitOnSpace (d :: rest) with
        | nil => exact absurd hs (splitOnSpace_ne_nil (d :: rest))
        | cons w ws => exact ⟨w, ws, rfl⟩
      have hsp : splitOnSpace (c :: d :: rest) = (c :: w) :: ws := by
        show (if c = ' ' then [] :: splitOnSpace (d :: rest)
          else match splitOnSpace (d :: rest) with
          | [] => [[c]]
          | w :: ws => (c :: w) :: ws) = (c :: w) :: ws
        rw [if_neg hc, hws]
      rw [hsp]
      have htail : ∀ p ∈ ws, ¬ p = [] := by
        have := ih.1
        rw [hws] at this
        simpa using this
      refine ⟨by simpa using htail, ?_⟩
      intro _ _ p hp
      rcases List.mem_cons.mp hp with hp1 | hp2
      · subst hp1
        simp
      · exact htail p hp2

theorem sumLen_nil : sumLen ([] : List (List Char)) = 0 := rfl

theorem sumLen_cons (a : List Char) (l : List (List Char)) :
    sumLen (a :: l) = a.length + sumLen l := rfl

/-- The greedy packer emits enough chunks: the words with one separator
each are covered by the emitted chunks plus one dropped separator per
chunk boundary. -/
theorem packWords_count : ∀ (ws chunks : List (List Char))
    (current : List Char), (∀ w ∈ ws, ¬ w = []) →
    sumLen ws + ws.length + sumLen chunks + chunks.length +
        (if current = [] then 0 else current.length + 1) ≤
      sumLen (packWords chunks current ws) +
        (packWords chunks current ws).length
  | [], chunks, current, _ => by
    unfold packWords
    by_cases hce : current = []
    · subst hce
      simp [sumLen]
    · rw [if_neg hce, if_neg hce, sumLen_append]
      simp only [sumLen, List.foldr_cons, List.foldr_nil,
        List.length_append, List.length_cons, List.length_nil]
      omega
  | word :: ws, chunks, current, hws => by
    have hw : ¬ word = [] := hws word (by simp)
    have hwlen : 0 < word.length := List.length_pos.mpr hw
    have hws2 : ∀ w ∈ ws, ¬ w = [] := fun w h2 =>
      hws w (List.mem_cons_of_mem _ h2)
    have hnilT : ((([] : List Char)) = []) = True := eq_true rfl
    by_cases hce : current = []
    · subst hce
      by_cases hfit : word.length ≤ get_chunk_limit (some word) true
      · have hstep : packWords chunks [] (word :: ws) =
            packWords chunks word ws := by
          simp only [packWords, hnilT, if_true, hfit]
        rw [hstep]
        have ih := packWords_count ws chunks word hws2
        rw [if_neg hw] at ih
        simp only [hnilT, if_true]
        simp only [sumLen_cons, sumLen_nil, List.length_cons, List.length_nil,
          List.length_append, sumLen_append] at ih ⊢
        omega
      · have hlong : get_chunk_limit (some word) true < word.length := by
          omega
        have hstep : packWords chunks [] (word :: ws) =
            packWords (chunks ++ splitLongWord word) [] ws := by
          simp only [packWords, hnilT, if_true, hfit, hlong, if_false]
        rw [hstep]
        have ih := packWords_count ws (chunks ++ splitLongWord word) [] hws2
        have hsum2 : sumLen (splitLongWord word) = word.length := by
          rw [sumLen_eq_length_flat, flat_splitLongWord]
        have hplen : 0 < (splitLongWord word).length :=
          List.length_pos.mpr (splitLongWord_ne_nil hw)
        simp only [hnilT, if_true] at ih ⊢
        simp only [sumLen_cons, sumLen_nil, List.length_cons, List.length_nil,
          List.length_append, sumLen_append] at ih ⊢
        omega
    · have hceF : (current = []) = False := eq_false hce
      have htest : ¬ current ++ ' ' :: word = [] := by simp
      have htestF : ((current ++ ' ' :: word) = []) = False :=
        eq_false htest
      by_cases hfit : (current ++ ' ' :: word).length ≤
          get_chunk_limit (some (current ++ ' ' :: word)) true
      · have hstep : packWords chunks current (word :: ws) =
            packWords chunks (current ++ ' ' :: word) ws := by
          simp only [packWords, hceF, if_false, hfit, if_true]
        rw [hstep]
        have ih := packWords_count ws chunks
          (current ++ ' ' :: word) hws2
        simp only [htestF, if_false] at ih
        simp only [hceF, if_false]
        simp only [sumLen_cons, sumLen_nil, List.length_cons, List.length_nil,
          List.length_append, sumLen_append] at ih ⊢
        omega
      · by_cases hlong : get_chunk_limit (some word) true < word.length
        · have hstep : packWords chunks current (word :: ws) =
              packWords ((chunks ++ [current]) ++ splitLongWord word)
                [] ws := by
            simp only [packWords, hceF, if_false, hfit, hlong, if_true]
          rw [hstep]
          have ih := packWords_count ws
            ((chunks ++ [current]) ++ splitLongWord word) [] hws2
          have hsum2 : sumLen (splitLongWord word) = word.length := by
            rw [sumLen_eq_length_flat, flat_splitLongWord]
          have hplen : 0 < (splitLongWord word).length :=
            List.length_pos.mpr (splitLongWord_ne_nil hw)
          simp only [hnilT, if_true] at ih
          simp only [hceF, if_false]
          simp only [sumLen_cons, sumLen_nil, List.length_cons,
            List.length_nil, List.length_append, sumLen_append] at ih ⊢
          omega
        · have hstep : packWords chunks current (word :: ws) =
              packWords (chunks ++ [current]) word ws := by
            simp only [packWords, hceF, if_false, hfit, hlong]
          rw [hstep]
          have ih := packWords_count ws (chunks ++ [current]) word hws2
          rw [if_neg hw] at ih
          simp only [hceF, if_false]
          simp only [sumLen_cons, sumLen_nil, List.length_cons,
            List.length_nil, List.length_append, sumLen_append] at ih ⊢
          omega

/-! ## Claim C2: narrow multipart segment bounds and count -/

/-- Claim C2 counterexample: three narrow words of 155 characters each
(normalised length 467, within 161 to 500) are split into 6 segments,
while ceil(467 / 153) = 4, so the segment count misses ceil by 2: the
over-long words each leave a short remainder chunk. -/
theorem chunk_narrow_count_counterexample :
    is_gsm_7bit (some (joinWords [List.replicate 155 'a',
      List.replicate 155 'b', List.replicate 155 'c'])) = true ∧
    (normalize (joinWords [List.replicate 155 'a', List.replicate 155 'b',
      List.replicate 155 'c'])).length = 467 ∧
    (chunk_text_smart (some (joinWords [List.replicate 155 'a',
      List.replicate 155 'b', List.replicate 155 'c']))).length = 6 ∧
    ((467 + 152) / 153 : Nat) = 4 := by
  decide

/-- Claim C2 (amended): for narrow text of normalised length 161 to 500,
every segment has length at most 153, and the number of segments is at
least ceil(normalised length / 153) minus 1; the claimed upper bound of
ceil plus 1 does not hold in general. -/
theorem chunk_narrow_count (raw : List Char)
    (hgsm : is_gsm_7bit (some raw) = true)
    (h161 : 161 ≤ (normalize raw).length)
    (h500 : (normalize raw).length ≤ 500) :
    (∀ s ∈ chunk_text_smart (some raw), s.length ≤ 153) ∧
    ((normalize raw).length + 152) / 153 ≤
      (chunk_text_smart (some raw)).length + 1 := by
  have hne : ¬ normalize raw = [] := by
    intro hc
    rw [hc] at h161
    simp at h161
  have hg : is_gsm_7bit (some (normalize raw)) = true := normalize_gsm hgsm
  have hnotle : ¬ (normalize raw).length ≤
      get_chunk_limit (some (normalize raw)) false := by
    rw [get_chunk_limit, hg]
    simp
    omega
  have hch : chunk_text_smart (some raw) =
      packWords [] [] (splitOnSpace (normalize raw)) := by
    simp [chunk_text_smart, hne, hnotle]
  have hle : ∀ s ∈ chunk_text_smart (some raw), s.length ≤ 153 := by
    rw [hch]
    intro s hs
    exact le_trans (packWords_le _ [] [] (by simp) (by simp) s hs)
      (get_chunk_limit_multipart_le _)
  refine ⟨hle, ?_⟩
  have hwords : ∀ w ∈ splitOnSpace (normalize raw), ¬ w = [] :=
    (splitOnSpace_parts (normalize raw) (normalize_chain raw)
      (normalize_getLast_not_space raw hne)).2
      (normalize_head_not_space raw hne) hne
  have hcnt := packWords_count (splitOnSpace (normalize raw)) [] [] hwords
  have hnilT : ((([] : List Char)) = []) = True := eq_true rfl
  simp only [hnilT, if_true, sumLen_nil, List.length_nil] at hcnt
  have hjoin : sumLen (splitOnSpace (normalize raw)) +
      (splitOnSpace (normalize raw)).length = (normalize raw).length + 1 := by
    have h1 := joinWords_length (splitOnSpace (normalize raw))
      (splitOnSpace_ne_nil _)
    rw [joinWords_splitOnSpace] at h1
    exact h1
  have hle2 := hle
  rw [hch] at hle2
  have hSK : sumLen (packWords [] [] (splitOnSpace (normalize raw))) ≤
      153 * (packWords [] [] (splitOnSpace (normalize raw))).length :=
    sumLen_le_mul _ hle2
  rw [hch]
  omega

/-- Claim C2 witness: two 100-character narrow words (normalised length
201) yield segments within 153 and at least ceil(201/153) - 1 = 1 of
them. -/
theorem chunk_narrow_count_witness :
    ((List.replicate 100 'x') ∈ chunk_text_smart (some (joinWords
      [List.replicate 100 'x', List.replicate 100 'x'])) ∧
     (List.replicate 100 'x').length ≤ 153) ∧
    ((normalize (joinWords [List.replicate 100 'x',
        List.replicate 100 'x'])).length + 152) / 153 ≤
      (chunk_text_smart (some (joinWords [List.replicate 100 'x',
        List.replicate 100 'x']))).length + 1 := by
  have h := chunk_narrow_count (joinWords [List.replicate 100 'x',
    List.replicate 100 'x']) (by decide) (by decide) (by decide)
  have hm : (List.replicate 100 'x') ∈ chunk_text_smart (some (joinWords
      [List.replicate 100 'x', List.replicate 100 'x'])) := by decide
  exact ⟨⟨hm, h.1 _ hm⟩, h.2⟩

end SmsBot
